import Mathlib

/-!
Verification of the Lineage-Diagram-Engine geometry core.

Shallow embedding of `src/lineage_diagram/` (utils.py, paths.py, segments.py,
bundle.py, lineage.py, diagram.py) over exact rationals.  Python floats are
modelled as `ℚ`; complex numbers (used as 2-D points) as the `Pt` structure.

Two numerical ingredients of the external `svgpathtools` library are not
exactly representable over `ℚ` and are modelled as parameters:

* the unit-tangent normalization divides by `sqrt (dx^2 + dy^2)`; the square
  root is supplied as a function argument `sq : ℚ → ℚ` (concrete statements
  instantiate it with `ratSqrt`, which agrees with the real square root on
  every value actually reached there, since the scenarios keep all tangents
  axis-aligned so the radicands are perfect rational squares);
* `svgpathtools.Path.point`/`normal` split the global parameter `T` by
  arc-length fractions of the path's pieces (`Path.T2t`); those fractions are
  supplied as a list argument `lens`.  For a one-piece path the fractions are
  `[1]` exactly, and every path evaluated in the concrete statements below has
  exactly one piece.

All Python mutation is modelled by explicit state passing; Python object
identity for `Lineage` values is modelled by an `id` field included in the
derived decidable equality.
-/

/-- Point in the plane, standing for a Python `complex` (re = X, im = Y). -/
structure Pt where
  x : ℚ
  y : ℚ
deriving DecidableEq, Repr

/-- Complex addition of two points. -/
def ptAdd (a b : Pt) : Pt := ⟨a.x + b.x, a.y + b.y⟩

/-- Subtraction of two points. -/
def ptSub (a b : Pt) : Pt := ⟨a.x - b.x, a.y - b.y⟩

/-- Multiplication of a point (complex) by a real scalar. -/
def ptScale (c : ℚ) (a : Pt) : Pt := ⟨c * a.x, c * a.y⟩

/-- Multiplication of a complex number by `-1j`: `(a+bi)*(-i) = b - ai`.
Used by `svgpathtools`' `normal(t) = -1j * unit_tangent(t)`. -/
def rotNegI (a : Pt) : Pt := ⟨a.y, -a.x⟩

/-- Squared euclidean norm of a vector. -/
def normSqV (a : Pt) : ℚ := a.x * a.x + a.y * a.y

/-- Newton iteration for the integer square root (structural recursion on a
fuel argument so that kernel reduction works; 64 steps are enough for any
operand below `2 ^ 64`, far beyond the values reached here). -/
def natSqrtGo (n : ℕ) : ℕ → ℕ → ℕ
  | 0, x => x
  | fuel + 1, x =>
      let next := (x + n / x) / 2
      if next < x then natSqrtGo n fuel next else x

/-- Floor integer square root (Newton's method; exact on perfect squares). -/
def natSqrt (n : ℕ) : ℕ := if n ≤ 1 then n else natSqrtGo n 64 n

/-- Exact rational square root: correct whenever the argument is the square
of a nonnegative rational (numerator and denominator are then perfect
squares); returns a junk value otherwise.  Stands for the numerical square
root inside `svgpathtools`' unit-tangent computation; every concrete
evaluation below only reaches perfect-square radicands (axis-aligned
tangents). -/
def ratSqrt (q : ℚ) : ℚ := (natSqrt q.num.toNat : ℚ) / (natSqrt q.den : ℚ)

/-- Embedding of `utils.smootherstep`: quintic smoothing, clamped. -/
def smootherstep (linear : ℚ) : ℚ :=
  if linear ≤ 0 then 0
  else if 1 ≤ linear then 1
  else
    let squared := linear * linear
    let cubed := linear * squared
    cubed * (6 * squared - 15 * linear + 10)

/-- Embedding of `numpy.linspace(0, 1, n)`. -/
def linspace : ℕ → List ℚ
  | 0 => []
  | 1 => [0]
  | n + 2 => (List.range (n + 2)).map (fun i : ℕ => (i : ℚ) / ((n : ℚ) + 1))

/-- Embedding of `paths.ShiftEvent` (dynamic target modelled by lineage id). -/
structure ShiftEvent where
  from_x : ℚ
  to_x : ℚ
  to_y : Option ℚ := none
  target_lineage : Option ℕ := none
  offset_y : ℚ := 0
deriving DecidableEq, Repr

/-- Embedding of `paths.ScaleEvent`. -/
structure ScaleEvent where
  from_x : ℚ
  to_x : ℚ
  to_w : ℚ
deriving DecidableEq, Repr

/-- Embedding of `paths.MembershipEventType`. -/
inductive MembershipEventType where
  | join
  | leave
deriving DecidableEq, Repr

/-- Embedding of `paths.MembershipEvent` (`assembly` and `target_lineage`
object references modelled as ids resolved through an environment). -/
structure MembershipEvent where
  from_x : ℚ
  to_x : ℚ
  type : MembershipEventType
  assembly : Option ℕ := none
  target_y : Option ℚ := none
  target_lineage : Option ℕ := none
  offset_y : ℚ := 0
deriving DecidableEq, Repr

/-- Geometry piece of an SVG path: `svgpathtools.Line` or
`svgpathtools.CubicBezier`. -/
inductive Piece where
  | line (p0 p1 : Pt)
  | cubic (p0 p1 p2 p3 : Pt)
deriving DecidableEq, Repr

/-- Point of a piece at local parameter `t` (svgpathtools `Line.point` /
`CubicBezier.point`, Bernstein form). -/
def piecePoint : Piece → ℚ → Pt
  | .line p0 p1, t => ptAdd p0 (ptScale t (ptSub p1 p0))
  | .cubic p0 p1 p2 p3, t =>
      let u := 1 - t
      ptAdd (ptAdd (ptScale (u * u * u) p0) (ptScale (3 * u * u * t) p1))
            (ptAdd (ptScale (3 * u * t * t) p2) (ptScale (t * t * t) p3))

/-- Derivative of a piece at local parameter `t`. -/
def pieceDeriv : Piece → ℚ → Pt
  | .line p0 p1, _ => ptSub p1 p0
  | .cubic p0 p1 p2 p3, t =>
      let u := 1 - t
      ptAdd (ptAdd (ptScale (3 * u * u) (ptSub p1 p0)) (ptScale (6 * u * t) (ptSub p2 p1)))
            (ptScale (3 * t * t) (ptSub p3 p2))

/-- Unit tangent of a piece: `derivative / |derivative|`, with the square
root supplied by `sq`. -/
def pieceUnitTangent (sq : ℚ → ℚ) (p : Piece) (t : ℚ) : Pt :=
  let d := pieceDeriv p t
  ptScale (1 / sq (normSqV d)) d

/-- Normal of a piece: svgpathtools' `normal(t) = -1j * unit_tangent(t)`. -/
def pieceNormal (sq : ℚ → ℚ) (p : Piece) (t : ℚ) : Pt :=
  rotNegI (pieceUnitTangent sq p t)

/-- Start point of a piece (its point at `t = 0`). -/
def pieceStart : Piece → Pt
  | .line p0 _ => p0
  | .cubic p0 _ _ _ => p0

/-- End point of a piece (its point at `t = 1`). -/
def pieceEnd : Piece → Pt
  | .line _ p1 => p1
  | .cubic _ _ _ p3 => p3

/-- Walk of svgpathtools' `Path.T2t`: split the global parameter among the
pieces in proportion to the supplied arc-length fractions `lens`. -/
def t2tWalk : List ℚ → ℕ → ℚ → ℚ → ℕ × ℚ
  | [], idx, _, _ => (idx - 1, 1)
  | len :: rest, idx, t0, T =>
      let t1 := t0 + len
      if t1 ≥ T then (idx, (T - t0) / len) else t2tWalk rest (idx + 1) t1 T

/-- Embedding of svgpathtools' `Path.T2t` (arc-length fractions passed in). -/
def pathT2t (lens : List ℚ) (nPieces : ℕ) (T : ℚ) : ℕ × ℚ :=
  if T = 1 then (nPieces - 1, 1) else t2tWalk lens 0 0 T

/-- Fallback piece for out-of-range indexing (unreachable on the paths the
theorems evaluate). -/
def defaultPiece : Piece := .line ⟨0, 0⟩ ⟨0, 0⟩

/-- Embedding of svgpathtools' `Path.point` at global parameter `T`. -/
def pathPointL (lens : List ℚ) (path : List Piece) (T : ℚ) : Pt :=
  let it := pathT2t lens path.length T
  piecePoint (path.getD it.1 defaultPiece) it.2

/-- Embedding of svgpathtools' `Path.normal` at global parameter `T`. -/
def pathNormalL (sq : ℚ → ℚ) (lens : List ℚ) (path : List Piece) (T : ℚ) : Pt :=
  let it := pathT2t lens path.length T
  pieceNormal sq (path.getD it.1 defaultPiece) it.2

/-- Stable insertion of an element into a key-sorted list: the new element
goes after every element whose key is less than or equal to its own. -/
def insertByKey {α : Type} (key : α → ℚ) (a : α) : List α → List α
  | [] => [a]
  | b :: bs => if key b ≤ key a then b :: insertByKey key a bs else a :: b :: bs

/-- Stable sort by a rational key, modelling Python's stable
`list.sort(key=...)`: elements are inserted left to right, each placed after
the already-inserted elements of equal key, so the result is sorted by key
with the original order preserved among equal keys — exactly the contract of
the Python sort. -/
def sortByKey {α : Type} (key : α → ℚ) (l : List α) : List α :=
  l.foldl (fun acc a => insertByKey key a acc) []

/-- Sorting of shift events by `from_x`
(`self.shift_events.sort(key=...)`). -/
def sortShiftEvents (events : List ShiftEvent) : List ShiftEvent :=
  sortByKey (fun e => e.from_x) events

/-- Single step of `ShiftablePath.get_baseline_path`'s event loop: emit the
straight run up to the event (if not degenerate) and the horizontally
symmetric cubic transition (if not degenerate), and advance `last_point`. -/
def baselineStep (acc : List Piece × Pt) (shift : ShiftEvent) : List Piece × Pt :=
  let last := acc.2
  let startShiftPoint : Pt := ⟨shift.from_x, last.y⟩
  let pieces1 :=
    if startShiftPoint ≠ last then acc.1 ++ [Piece.line last startShiftPoint] else acc.1
  let resolvedToY := shift.to_y
  let endShiftY := (match resolvedToY with | some y => y | none => 0) + shift.offset_y
  let endShiftPoint : Pt := ⟨shift.to_x, endShiftY⟩
  let shiftMidpointX := (startShiftPoint.x + endShiftPoint.x) / 2
  let pieces2 :=
    if startShiftPoint ≠ endShiftPoint then
      pieces1 ++ [Piece.cubic startShiftPoint ⟨shiftMidpointX, startShiftPoint.y⟩
        ⟨shiftMidpointX, endShiftPoint.y⟩ endShiftPoint]
    else pieces1
  (pieces2, endShiftPoint)

/-- Embedding of `paths.ShiftablePath.get_baseline_path`: sort the events,
walk them emitting line/cubic pieces, then close with a final straight run to
`end_x` (or to the `999999.0` sentinel when `end_x` is undefined). -/
def getBaselinePath (start_x start_y : ℚ) (end_x : Option ℚ)
    (shift_events : List ShiftEvent) : List Piece :=
  let sorted := sortShiftEvents shift_events
  let r := sorted.foldl baselineStep ([], ⟨start_x, start_y⟩)
  let effectiveEndX := end_x.getD 999999
  let endPoint : Pt := ⟨effectiveEndX, r.2.y⟩
  if endPoint ≠ r.2 then r.1 ++ [Piece.line r.2 endPoint] else r.1

/-- Sorting of scale events by `from_x`. -/
def sortScaleEvents (events : List ScaleEvent) : List ScaleEvent :=
  sortByKey (fun e => e.from_x) events

/-- Event walk of `paths.ScalablePath.get_width_at` (events already sorted). -/
def widthWalk (x : ℚ) : ℚ → List ScaleEvent → ℚ
  | lastWidth, [] => lastWidth
  | lastWidth, e :: rest =>
      if x ≤ e.from_x then lastWidth
      else if e.from_x < x ∧ x < e.to_x then
        lastWidth + (e.to_w - lastWidth) * smootherstep ((x - e.from_x) / (e.to_x - e.from_x))
      else widthWalk x e.to_w rest

/-- Embedding of `paths.ScalablePath.get_width_at`. -/
def getWidthAt (start_w : ℚ) (end_x : Option ℚ) (scale_events : List ScaleEvent)
    (x : ℚ) : ℚ :=
  match end_x with
  | some e =>
      if e < x then 0 else widthWalk x start_w (sortScaleEvents scale_events)
  | none => widthWalk x start_w (sortScaleEvents scale_events)

/-- Embedding of `utils.find_t_at_x`'s coarse scan: keep the first sample
with strictly minimal distance (initial `min_dist` is infinite, so the first
sample always wins). -/
def coarseScan (lens : List ℚ) (path : List Piece) (targetX : ℚ) :
    List ℚ → Option (ℚ × ℚ) → ℚ
  | [], best => (match best with | some b => b.1 | none => 0)
  | t :: rest, best =>
      let dist := |(pathPointL lens path t).x - targetX|
      let best' :=
        match best with
        | none => some (t, dist)
        | some b => if dist < b.2 then some (t, dist) else some b
      coarseScan lens path targetX rest best'

/-- Bisection refinement loop of `utils.find_t_at_x` (10 iterations). -/
def bisectRefine (lens : List ℚ) (path : List Piece) (targetX : ℚ) :
    ℕ → ℚ → ℚ → ℚ × ℚ
  | 0, low, high => (low, high)
  | n + 1, low, high =>
      let mid := (low + high) / 2
      if (pathPointL lens path mid).x < targetX then bisectRefine lens path targetX n mid high
      else bisectRefine lens path targetX n low mid

/-- Embedding of `utils.find_t_at_x`: coarse scan over `linspace` followed by
10 bisection steps around the best coarse parameter. -/
def findTAtX (lens : List ℚ) (path : List Piece) (targetX : ℚ)
    (resolution : ℕ := 100) : ℚ :=
  let bestT := coarseScan lens path targetX (linspace resolution) none
  let low := max 0 (bestT - 1/100)
  let high := min 1 (bestT + 1/100)
  let r := bisectRefine lens path targetX 10 low high
  (r.1 + r.2) / 2

/-- Embedding of `diagram.Diagram`'s data (view dimensions and sampling
resolution; the lineage/bundle registries only drive `generate`'s iteration
order and are not needed by the claims). -/
structure Diagram where
  view_width : ℚ
  view_height : ℚ
  resolution : ℕ
deriving DecidableEq, Repr

/-- Embedding of `lineage.Lineage`'s data (the `color` string is rendering
only; object identity is modelled by `id`; bundle references by ids). -/
structure Lineage where
  id : ℕ
  diagram : Diagram
  start_x : ℚ
  start_y : ℚ
  start_w : ℚ
  membership_events : List MembershipEvent := []
  shift_events : List ShiftEvent := []
  scale_events : List ScaleEvent := []
  initial_bundle : Option ℕ := none
  end_x : Option ℚ := none
deriving DecidableEq, Repr

/-- Width of a lineage at X: `Lineage` inherits
`ScalablePath.get_width_at`. -/
def lineageWidthAt (l : Lineage) (x : ℚ) : ℚ :=
  getWidthAt l.start_w l.end_x l.scale_events x

/-- Embedding of `bundle.BundleMembership`. -/
structure BundleMembership where
  lineage : Lineage
  start_x : ℚ
  end_x : ℚ
  fade_in_duration : ℚ := 0
  fade_out_duration : ℚ := 0
deriving DecidableEq, Repr

/-- Embedding of `bundle.Bundle`'s data. -/
structure Bundle where
  diagram : Diagram
  start_x : ℚ
  start_y : ℚ
  margin : ℚ
  shift_events : List ShiftEvent := []
  memberships : List BundleMembership := []
deriving DecidableEq, Repr

/-- Embedding of the `Bundle.end_x` property: the diagram's view width. -/
def bundleEndX (b : Bundle) : ℚ := b.diagram.view_width

/-- Baseline of a bundle: `Bundle` inherits
`ShiftablePath.get_baseline_path`, with `end_x` the (always defined)
property above. -/
def bundleBaselinePath (b : Bundle) : List Piece :=
  getBaselinePath b.start_x b.start_y (some (bundleEndX b)) b.shift_events

/-- Embedding of `Bundle.get_memberships_at`: memberships active at X, in
registration order. -/
def getMembershipsAt (b : Bundle) (x : ℚ) : List BundleMembership :=
  b.memberships.filter (fun m => decide (m.start_x ≤ x ∧ x ≤ m.end_x))

/-- Embedding of `Bundle._get_factor`: presence factor of a member at X. -/
def getFactor (m : BundleMembership) (x : ℚ) : ℚ :=
  if x < m.start_x + m.fade_in_duration then
    if m.fade_in_duration ≤ 1/100000 then 1
    else smootherstep ((x - m.start_x) / m.fade_in_duration)
  else if m.end_x - m.fade_out_duration < x then
    if m.fade_out_duration ≤ 1/100000 then 1
    else 1 - smootherstep ((x - (m.end_x - m.fade_out_duration)) / m.fade_out_duration)
  else 1

/-- Start-edge gap correction loop of `Bundle._calculate_layout`: walk the
gaps from the start, removing up to `excess`, stopping once the excess is
exhausted (`<= 1e-5`). -/
def applyStartCorrection : List ℚ → ℚ → List ℚ
  | [], _ => []
  | g :: rest, excess =>
      if excess ≤ 1/100000 then g :: rest
      else
        let correction := min g excess
        (g - correction) :: applyStartCorrection rest (excess - correction)

/-- End-edge gap correction loop of `Bundle._calculate_layout` (same walk,
from the last gap backwards). -/
def applyEndCorrection (gaps : List ℚ) (excess : ℚ) : List ℚ :=
  (applyStartCorrection gaps.reverse excess).reverse

/-- Embedding of `Bundle._calculate_layout`: effective widths and
inter-member gaps for the given memberships at X. -/
def calculateLayout (b : Bundle) (memberships : List BundleMembership) (x : ℚ) :
    List ℚ × List ℚ :=
  let factors := memberships.map (fun m => getFactor m x)
  let effectiveWidths :=
    List.zipWith (fun m factor => lineageWidthAt m.lineage x * factor) memberships factors
  let count := memberships.length
  let gaps :=
    if 1 < count then
      let initial := List.zipWith (fun f1 f2 => 1/2 * b.margin * (f1 + f2)) factors factors.tail
      let startExcess := 1/2 * b.margin * (1 - factors.headI)
      let endExcess := 1/2 * b.margin * (1 - factors.getLastD 0)
      applyEndCorrection (applyStartCorrection initial startExcess) endExcess
    else []
  let gaps2 := if 0 < count then gaps ++ [0] else gaps
  (effectiveWidths, gaps2)

/-- Per-member stacking offsets of the solver loop: starting at the given
offset (`-bundle_width/2` at call sites), each member occupies its slot and
advances the offset by `width + gap`. -/
def stackOffsets : List ℚ → List ℚ → ℚ → List ℚ
  | w :: ws, g :: gs, offset => offset :: stackOffsets ws gs (offset + w + g)
  | _, _, _ => []

/-- Compiled point cache of a bundle: per-lineage upper/lower point lists
(the Python dict `compiled_member_points`, as an insertion-ordered
association list). -/
def Cache := List (Lineage × (List Pt × List Pt))

/-- Walk of `dedupKeys` carrying the keys already seen. -/
def dedupKeysGo (seen : List Lineage) : List Lineage → List Lineage
  | [] => []
  | l :: ls => if l ∈ seen then dedupKeysGo seen ls else l :: dedupKeysGo (l :: seen) ls

/-- Key list of a Python dict comprehension: first occurrence order,
duplicates collapsed. -/
def dedupKeys (ls : List Lineage) : List Lineage := dedupKeysGo [] ls

/-- Appending one point pair to one member's entry of the cache
(`compiled_member_points[lineage][0].append(...)` and the lower twin). -/
def cacheAppend (cache : Cache) (key : Lineage) (upper lower : Pt) : Cache :=
  cache.map (fun e => if e.1 = key then (e.1, (e.2.1 ++ [upper], e.2.2 ++ [lower])) else e)

/-- Inner member loop of `Bundle.solve_geometry` at one sample: walk members
with widths and gaps, recording each member's upper/lower offset points. -/
def solveMembersLoop (point normal : Pt) :
    List BundleMembership → List ℚ → List ℚ → ℚ → Cache → Cache
  | m :: ms, w :: ws, g :: gs, currentOffset, cache =>
      let upperPoint := ptAdd point (ptScale (currentOffset + w) normal)
      let lowerPoint := ptAdd point (ptScale currentOffset normal)
      let cache' := cacheAppend cache m.lineage upperPoint lowerPoint
      solveMembersLoop point normal ms ws gs (currentOffset + w + g) cache'
  | _, _, _, _, cache => cache

/-- Body of `Bundle.solve_geometry`'s sampling loop at one parameter `t`. -/
def solveSample (b : Bundle) (lens : List ℚ) (sq : ℚ → ℚ) (path : List Piece)
    (cache : Cache) (t : ℚ) : Cache :=
  let point := pathPointL lens path t
  let normal := pathNormalL sq lens path t
  let x := point.x
  let memberships := getMembershipsAt b x
  if memberships.isEmpty then cache
  else
    let wg := calculateLayout b memberships x
    let bundleWidth := wg.1.sum + wg.2.sum
    solveMembersLoop point normal memberships wg.1 wg.2 (-(bundleWidth / 2)) cache

/-- Embedding of `Bundle.solve_geometry`: initialize an empty entry per
member lineage, then sample the baseline at the diagram resolution, stacking
active members at each sample.  `lens` supplies the baseline pieces'
arc-length fractions (see the header). -/
def solveGeometry (b : Bundle) (lens : List ℚ) (sq : ℚ → ℚ) : Cache :=
  let path := bundleBaselinePath b
  let cache0 : Cache := (dedupKeys (b.memberships.map (fun m => m.lineage))).map
    (fun l => (l, ([], [])))
  (linspace b.diagram.resolution).foldl (solveSample b lens sq path) cache0

/-- Member scan of `Bundle._get_member_geometry_at`: find the requested
lineage among the stacked members and return its upper/lower points; fall
back to the baseline point itself (the bundle centerline) when the lineage
is not among the members. -/
def memberScan (lineage : Lineage) (point normal : Pt) :
    List BundleMembership → List ℚ → List ℚ → ℚ → Pt × Pt
  | m :: ms, w :: ws, g :: gs, currentOffset =>
      if m.lineage = lineage then
        (ptAdd point (ptScale (currentOffset + w) normal),
         ptAdd point (ptScale currentOffset normal))
      else memberScan lineage point normal ms ws gs (currentOffset + w + g)
  | _, _, _, _ => (point, point)

/-- Embedding of `Bundle._get_member_geometry_at`: locate the baseline
parameter at X, stack the active members there, and return the requested
member's upper/lower boundary points (or the centerline fallback). -/
def getMemberGeometryAt (b : Bundle) (lens : List ℚ) (sq : ℚ → ℚ) (x : ℚ)
    (lineage : Lineage) : Pt × Pt :=
  let path := bundleBaselinePath b
  let t := findTAtX lens path x
  let point := pathPointL lens path t
  let normal := pathNormalL sq lens path t
  let xOnPath := point.x
  let memberships := getMembershipsAt b xOnPath
  let wg := calculateLayout b memberships xOnPath
  let bundleWidth := wg.1.sum + wg.2.sum
  memberScan lineage point normal memberships wg.1 wg.2 (-(bundleWidth / 2))

/-- Embedding of `Bundle.get_center_point_of_member_at`. -/
def getCenterPointOfMemberAt (b : Bundle) (lens : List ℚ) (sq : ℚ → ℚ) (x : ℚ)
    (lineage : Lineage) : Pt :=
  let ul := getMemberGeometryAt b lens sq x lineage
  ptScale (1/2) (ptAdd ul.1 ul.2)

/-- Embedding of `Bundle.get_compiled_points_for`: filter the member's
cached points to the X range, synthesizing the exact boundary points by
direct layout evaluation when the cache misses them; a lineage absent from
the cache reports an error and yields two empty lists. -/
def getCompiledPointsFor (b : Bundle) (lens : List ℚ) (sq : ℚ → ℚ) (cache : Cache)
    (lineage : Lineage) (start_x end_x : ℚ) : List Pt × List Pt :=
  match cache.find? (fun e => decide (e.1 = lineage)) with
  | none => ([], [])
  | some entry =>
      let filteredUpper := entry.2.1.filter (fun p => decide (start_x ≤ p.x ∧ p.x ≤ end_x))
      let filteredLower := entry.2.2.filter (fun p => decide (start_x ≤ p.x ∧ p.x ≤ end_x))
      let needStart :=
        match filteredUpper.head? with
        | none => true
        | some p => decide (start_x + 1/100000 < p.x)
      let fu2 := if needStart then (getMemberGeometryAt b lens sq start_x lineage).1 :: filteredUpper
                 else filteredUpper
      let fl2 := if needStart then (getMemberGeometryAt b lens sq start_x lineage).2 :: filteredLower
                 else filteredLower
      let needEnd :=
        match fu2.getLast? with
        | none => true
        | some p => decide (p.x < end_x - 1/100000)
      let fu3 := if needEnd then fu2 ++ [(getMemberGeometryAt b lens sq end_x lineage).1] else fu2
      let fl3 := if needEnd then fl2 ++ [(getMemberGeometryAt b lens sq end_x lineage).2] else fl2
      (fu3, fl3)

/-- Vertical stacking walk of `Lineage._calculate_merge_layout`: slot the
parents' proportional shares from the child's lower edge upward, centering
each parent in its share. -/
def centersWalk : List ℚ → ℚ → List ℚ
  | [], _ => []
  | share :: rest, currentSlotY =>
      (currentSlotY + share / 2) :: centersWalk rest (currentSlotY + share)

/-- Embedding of `Lineage._calculate_merge_layout`: target widths (clamped
to `[max(own width, proportional share), child width]`) and target centers
(stacked by share, then clamped into the child's vertical extent) for each
parent at the merge point.  `start_x` is accepted and unused, as in the
source. -/
def calculateMergeLayout (parents : List Lineage) (merge_from_x : ℚ)
    (start_x start_y start_w : ℚ) : List ℚ × List ℚ :=
  let _ := start_x
  let parentsWidthsAtFromX := parents.map (fun p => lineageWidthAt p merge_from_x)
  let totalParentsWidth := parentsWidthsAtFromX.sum
  let proportions :=
    if 0 < totalParentsWidth then parentsWidthsAtFromX.map (fun w => w / totalParentsWidth)
    else parents.map (fun _ => 1 / (parents.length : ℚ))
  let proportionalWidths :=
    List.zipWith (fun widthAtFrom proportion =>
      let proportionalShare := start_w * proportion
      let lowerBound := max widthAtFrom proportionalShare
      min lowerBound start_w) parentsWidthsAtFromX proportions
  let proportionalShares := proportions.map (fun proportion => start_w * proportion)
  let parentCenters := centersWalk proportionalShares (start_y - start_w / 2)
  let childUpperEdge := start_y + start_w / 2
  let childLowerEdge := start_y - start_w / 2
  let adjustedCenters :=
    List.zipWith (fun parentTargetW parentCenter =>
      let parentUpperEdge := parentCenter + parentTargetW / 2
      let parentLowerEdge := parentCenter - parentTargetW / 2
      if childUpperEdge < parentUpperEdge then parentCenter - (parentUpperEdge - childUpperEdge)
      else if parentLowerEdge < childLowerEdge then parentCenter + (childLowerEdge - parentLowerEdge)
      else parentCenter) proportionalWidths parentCenters
  (proportionalWidths, adjustedCenters)

/-- Membership back-patch loop of `Lineage.leave`: find the first membership
of this lineage whose `[start_x, end_x]` interval contains `from_x` and set
its `end_x` and `fade_out_duration`; stop there. -/
def leaveUpdateMemberships (self : Lineage) (from_x to_x : ℚ) :
    List BundleMembership → List BundleMembership
  | [] => []
  | m :: ms =>
      if m.lineage = self ∧ m.start_x ≤ from_x ∧ from_x ≤ m.end_x then
        { m with end_x := to_x, fade_out_duration := to_x - from_x } :: ms
      else m :: leaveUpdateMemberships self from_x to_x ms

/-- Embedding of `Lineage.leave`: append the LEAVE membership event to the
lineage and back-patch the assembly's matching membership.  Returns the
updated lineage and assembly (Python mutates both in place). -/
def lineageLeave (l : Lineage) (from_x to_x : ℚ) (from_assembly : Bundle)
    (assemblyId : ℕ) (to_y : Option ℚ) (target_lineage : Option ℕ) (offset_y : ℚ) :
    Lineage × Bundle :=
  ({ l with membership_events := l.membership_events ++
      [{ from_x := from_x, to_x := to_x, type := .leave, assembly := some assemblyId,
         target_y := to_y, target_lineage := target_lineage, offset_y := offset_y }] },
   { from_assembly with
      memberships := leaveUpdateMemberships l from_x to_x from_assembly.memberships })

/-- Environment resolving the object references that the Python code follows
through attribute access: lineage ids, bundle ids, and each bundle baseline's
arc-length fractions (see the header). -/
structure Env where
  lineages : ℕ → Lineage
  bundles : ℕ → Bundle
  lensOf : ℕ → List ℚ

/-- Embedding of `Lineage._resolve_target_y`: find the target lineage's
bundle (initial bundle first, else the first JOIN interval containing the
query X), and return the member-center Y there plus the offset; `none` when
the target is not in a bundle. -/
def resolveTargetY (env : Env) (sq : ℚ → ℚ) (targetId : ℕ) (at_x offset_y : ℚ) :
    Option ℚ :=
  let target := env.lineages targetId
  let targetBundle : Option ℕ :=
    match target.initial_bundle with
    | some bid => some bid
    | none =>
        (target.membership_events.find? (fun me =>
          decide (me.type = .join ∧ me.from_x ≤ at_x ∧ at_x ≤ me.to_x))).bind
          (fun me => me.assembly)
  match targetBundle with
  | some bid =>
      let bundle := env.bundles bid
      let center := getCenterPointOfMemberAt bundle (env.lensOf bid) sq (at_x + 1/1000) target
      some (center.y + offset_y)
  | none => none

/-- Compiled segment value of `segments.py`: either an `IndependentSegment`
(owns its geometry inputs) or a `DependentSegment` (bundle reference by id,
plus the lineage whose points it fetches). -/
inductive Segment where
  | independent (diagram : Diagram) (start_x start_y start_w end_x : ℚ)
      (shift_events : List ShiftEvent) (scale_events : List ScaleEvent)
  | dependent (diagram : Diagram) (bundle : ℕ) (lineage : Lineage) (start_x end_x : ℚ)
deriving DecidableEq, Repr

/-- Truth value of `isinstance(segment, DependentSegment)`. -/
def Segment.isDependent : Segment → Bool
  | .independent _ _ _ _ _ _ _ => false
  | .dependent _ _ _ _ _ => true

/-- Shift-event collection of `Lineage.compile_segments` for one independent
span: keep events wholly inside the span, resolving dynamic targets when
possible. -/
def collectSegmentShifts (env : Env) (sq : ℚ → ℚ) (l : Lineage)
    (current_x end_segment_x : ℚ) : List ShiftEvent :=
  (l.shift_events.filter (fun se =>
    decide (current_x ≤ se.from_x ∧ se.to_x ≤ end_segment_x))).map (fun se =>
      match se.target_lineage with
      | some tid =>
          match resolveTargetY env sq tid se.to_x se.offset_y with
          | some resolvedY =>
              { from_x := se.from_x, to_x := se.to_x, to_y := some resolvedY }
          | none => se
      | none => se)

/-- Sorting of membership events by `from_x`. -/
def sortMembershipEvents (events : List MembershipEvent) : List MembershipEvent :=
  sortByKey (fun e => e.from_x) events

/-- Main loop of `Lineage.compile_segments` (the Python `while` loop).  The
fuel argument bounds the iterations: every productive iteration either
consumes a membership event or is final, so `events.length + 1` fuel is
exact for well-formed event sequences (on ill-formed ones — e.g. a LEAVE
while independent — the Python loop never terminates; exhausted fuel models
that unreachable divergence by stopping). -/
def compileLoop (env : Env) (sq : ℚ → ℚ) (l : Lineage) (max_x : ℚ) :
    ℕ → ℚ → ℚ → Bool → Option ℕ → List MembershipEvent → List Segment
  | 0, _, _, _, _, _ => []
  | fuel + 1, current_x, current_y, isDependent, currentBundle, events =>
      if current_x < max_x then
        let nextEvent := events.head?
        let endSegmentX := match nextEvent with | some e => e.from_x | none => max_x
        if isDependent = false then
          let segmentShifts := collectSegmentShifts env sq l current_x endSegmentX
          match nextEvent with
          | some ne =>
              if ne.type = .join then
                let bid := ne.assembly.getD 0
                let bundle := env.bundles bid
                let centerInBundle :=
                  getCenterPointOfMemberAt bundle (env.lensOf bid) sq ne.to_x l
                let shifts2 := segmentShifts ++
                  [{ from_x := ne.from_x, to_x := ne.to_x, to_y := some centerInBundle.y }]
                Segment.independent l.diagram current_x current_y l.start_w ne.to_x
                    shifts2 l.scale_events ::
                  compileLoop env sq l max_x fuel ne.to_x current_y true (some bid) events.tail
              else
                let seg := Segment.independent l.diagram current_x current_y l.start_w
                  endSegmentX segmentShifts l.scale_events
                let currentY' := match segmentShifts.getLast? with
                  | some sh => sh.to_y.getD 0
                  | none => current_y
                seg :: compileLoop env sq l max_x fuel endSegmentX currentY' false
                  currentBundle events
          | none =>
              [Segment.independent l.diagram current_x current_y l.start_w endSegmentX
                segmentShifts l.scale_events]
        else
          match nextEvent with
          | some ne =>
              if ne.type = .leave then
                let bid := currentBundle.getD 0
                let seg1 := Segment.dependent l.diagram bid l current_x ne.from_x
                let bundle := env.bundles bid
                let centerInBundle :=
                  getCenterPointOfMemberAt bundle (env.lensOf bid) sq (ne.from_x + 1/1000) l
                let resolvedTargetY : Option ℚ :=
                  match ne.target_lineage with
                  | some tid =>
                      match resolveTargetY env sq tid ne.to_x ne.offset_y with
                      | some ry => some ry
                      | none => ne.target_y
                  | none => ne.target_y
                let transitionShift : ShiftEvent :=
                  { from_x := ne.from_x, to_x := ne.to_x,
                    to_y := some (resolvedTargetY.getD 0) }
                let seg2 := Segment.independent l.diagram ne.from_x centerInBundle.y
                  l.start_w ne.to_x [transitionShift] l.scale_events
                seg1 :: seg2 ::
                  compileLoop env sq l max_x fuel ne.to_x (ne.target_y.getD 0) false none
                    events.tail
              else
                [Segment.dependent l.diagram (currentBundle.getD 0) l current_x max_x]
          | none =>
              [Segment.dependent l.diagram (currentBundle.getD 0) l current_x max_x]
      else []

/-- Embedding of `Lineage.compile_segments`: sort membership events, start
independent (or inside the construction bundle), and walk the timeline
emitting alternating independent/dependent segments. -/
def compileSegments (env : Env) (sq : ℚ → ℚ) (l : Lineage) : List Segment :=
  let sorted := sortMembershipEvents l.membership_events
  let isDependent0 := l.initial_bundle.isSome
  let currentBundle0 := l.initial_bundle
  let max_x := l.end_x.getD l.diagram.view_width
  compileLoop env sq l max_x (sorted.length + 1) l.start_x l.start_y isDependent0
    currentBundle0 sorted

/-- Sample of `IndependentSegment.compile`'s loop at one parameter of one
piece: offset the piece point along its normal by plus/minus half the width,
the width queried a small epsilon toward the piece interior. -/
def independentSample (sq : ℚ → ℚ) (start_w : ℚ) (end_x : ℚ)
    (scale_events : List ScaleEvent) (piece : Piece) (t : ℚ) : Pt × Pt :=
  let point := piecePoint piece t
  let normal := pieceNormal sq piece t
  let queryX := if t < 1/2 then point.x + 1/100000 else point.x - 1/100000
  let width := getWidthAt start_w (some end_x) scale_events queryX
  (ptAdd point (ptScale (width / 2) normal), ptAdd point (ptScale (-(width / 2)) normal))

/-- Per-piece sample list of `IndependentSegment.compile`'s loop: vertical pieces
(X extent below `1e-5`) are skipped; otherwise the piece is sampled at
`max 2 k` parameters, where `k` is the length-proportional sample count
`int(resolution * seg_len / total_len)`.  The piece arc lengths are
numerical values of `svgpathtools`, so `k` is supplied by the function
argument `nsamp` (indexed by piece position); theorems quantify over it. -/
def pieceSamples (sq : ℚ → ℚ) (start_w : ℚ) (end_x : ℚ)
    (scale_events : List ScaleEvent) (k : ℕ) (piece : Piece) : List (Pt × Pt) :=
  let s := piecePoint piece 0
  let e := piecePoint piece 1
  if |s.x - e.x| < 1/100000 then []
  else (linspace (max 2 k)).map (independentSample sq start_w end_x scale_events piece)

/-- The point computation `IndependentSegment.compile` is written to
perform, fed with the segment's shift and scale events: build the baseline,
then sample each non-vertical piece, producing the upper and lower boundary
point sequences.  On the actual source this computation is never reached
for a segment object: the constructor (segments.py:36-37) stores the events
under the private names `_shift_events`/`_scale_events`, while the
inherited `get_baseline_path`/`get_width_at` read the never-assigned
attributes `shift_events`/`scale_events` — see `IndependentSegmentObj` and
`compileIndependentObj` for the faithful execution model.  This function
(the events wired as `compile`'s own calls intend, and as spec section 4.4
describes) exhibits what the compile would produce once that attribute slip
is fixed. -/
def compileIndependent (sq : ℚ → ℚ) (nsamp : ℕ → ℕ) (start_x start_y start_w end_x : ℚ)
    (shift_events : List ShiftEvent) (scale_events : List ScaleEvent) :
    List Pt × List Pt :=
  let baselinePath := getBaselinePath start_x start_y (some end_x) shift_events
  let samples := baselinePath.enum.flatMap (fun ip =>
    pieceSamples sq start_w end_x scale_events (nsamp ip.1) ip.2)
  (samples.map Prod.fst, samples.map Prod.snd)

/-- Attribute state of an independent-segment object as `segments.py`'s
constructor leaves it.  The constructor assigns `start_x`/`start_y`/
`start_w`/`end_x` and stores the event lists under the private names
`_shift_events`/`_scale_events` (segments.py:36-37); the attributes
`shift_events`/`scale_events` that the inherited
`ShiftablePath.get_baseline_path` and `ScalablePath.get_width_at` read are
never assigned anywhere (the class-level annotations in paths.py declare
names but bind no values).  A Python attribute that may be unset is
modelled as an `Option`, `none` meaning a lookup raises `AttributeError`. -/
structure IndependentSegmentObj where
  diagram : Diagram
  start_x : ℚ
  start_y : ℚ
  start_w : ℚ
  end_x : ℚ
  stored_shift_events : List ShiftEvent
  stored_scale_events : List ScaleEvent
  shift_events : Option (List ShiftEvent)
  scale_events : Option (List ScaleEvent)
deriving DecidableEq, Repr

/-- Embedding of the independent segment constructor
(`IndependentSegment.__init__`, segments.py:21-37): the event arguments go
into the private attributes, and the plain `shift_events`/`scale_events`
attributes are left unset. -/
def mkIndependentSegment (diagram : Diagram) (start_x start_y start_w end_x : ℚ)
    (shift_events : List ShiftEvent) (scale_events : List ScaleEvent) :
    IndependentSegmentObj :=
  { diagram := diagram, start_x := start_x, start_y := start_y, start_w := start_w,
    end_x := end_x, stored_shift_events := shift_events,
    stored_scale_events := scale_events, shift_events := none, scale_events := none }

/-- Embedding of `IndependentSegment.compile` as the source executes it: its
first statement calls the inherited `get_baseline_path`, whose first access
is `self.shift_events` (paths.py:57); reading an unset attribute raises
`AttributeError` and the method produces nothing.  Only when both inherited
attributes are present does the sampling (`compileIndependent`) run
(`get_width_at` reads `self.scale_events` inside the sampling loop,
paths.py:104). -/
def compileIndependentObj (sq : ℚ → ℚ) (nsamp : ℕ → ℕ) (seg : IndependentSegmentObj) :
    Except String (List Pt × List Pt) :=
  match seg.shift_events with
  | none => .error "AttributeError: shift_events"
  | some shifts =>
      match seg.scale_events with
      | none => .error "AttributeError: scale_events"
      | some scales =>
          .ok (compileIndependent sq nsamp seg.start_x seg.start_y seg.start_w seg.end_x
            shifts scales)

/-- Embedding of `Segment.compile` dispatch as the source executes it: a
dependent segment reads only attributes its own constructor assigned and
fetches the bundle's compiled points, while an independent segment object
crashes on the unset `shift_events` attribute (see
`compileIndependentObj`). -/
def segmentCompileChecked (env : Env) (sq : ℚ → ℚ) (nsamp : ℕ → ℕ) (caches : ℕ → Cache) :
    Segment → Except String (List Pt × List Pt)
  | .independent d start_x start_y start_w end_x shift_events scale_events =>
      compileIndependentObj sq nsamp
        (mkIndependentSegment d start_x start_y start_w end_x shift_events scale_events)
  | .dependent _ bid lineage start_x end_x =>
      .ok (getCompiledPointsFor (env.bundles bid) (env.lensOf bid) sq (caches bid) lineage
        start_x end_x)

/-- Diagram used by the concrete join/leave scenario: 2000x1000 view,
resolution 10. -/
def dgmC1 : Diagram := { view_width := 2000, view_height := 1000, resolution := 10 }

/-- Lineage of the join/leave round-trip scenario, in its state when the
diagram is generated: constructed at `(0, 500)` with width 10, after
`join(300, 400, bundle)`, `leave(1000, 1100, bundle, to_y=800)` and
`terminate_at(1100)`. -/
def linC1 : Lineage :=
  { id := 1, diagram := dgmC1, start_x := 0, start_y := 500, start_w := 10,
    membership_events :=
      [{ from_x := 300, to_x := 400, type := .join, assembly := some 0 },
       { from_x := 1000, to_x := 1100, type := .leave, assembly := some 0,
         target_y := some 800 }],
    end_x := some 1100 }

/-- Bundle of the join/leave scenario, in its state when the diagram is
generated: horizontal baseline at Y = 500, margin 20; the single membership
was registered by the join (`start_x = 300`, `fade_in = 400 - 300`) and
back-patched by the leave (`end_x = 1100`, `fade_out = 1100 - 1000`). -/
def bunC1 : Bundle :=
  { diagram := dgmC1, start_x := 0, start_y := 500, margin := 20,
    memberships := [{ lineage := linC1, start_x := 300, end_x := 1100,
                      fade_in_duration := 100, fade_out_duration := 100 }] }

/-- Environment of the join/leave scenario: one bundle (id 0) whose baseline
is the single horizontal line from `(0,500)` to `(2000,500)`, so its
arc-length fraction list is exactly `[1]`. -/
def envC1 : Env :=
  { lineages := fun _ => linC1, bundles := fun _ => bunC1, lensOf := fun _ => [1] }

/-- Solved per-member point caches of the scenario (the orchestrator solves
every bundle before any lineage compiles). -/
def cachesC1 : ℕ → Cache := fun _ => solveGeometry bunC1 [1] ratSqrt

/-- Continuity of a piece list: every piece begins at the point where the
previous piece ended (no jump at any boundary). -/
def ChainedPieces (path : List Piece) : Prop :=
  List.Chain' (fun a b => pieceStart b = pieceEnd a) path

/-- Lineage of width 5 used by concrete witnesses. -/
def linW5 : Lineage := { id := 20, diagram := dgmC1, start_x := 0, start_y := 0, start_w := 5 }

/-- Lineage of width 7 used by concrete witnesses. -/
def linW7 : Lineage := { id := 21, diagram := dgmC1, start_x := 0, start_y := 0, start_w := 7 }

/-- Bundle with two fully-present members on `[0, 100]`, used by concrete
witnesses. -/
def bunW : Bundle :=
  { diagram := dgmC1, start_x := 0, start_y := 0, margin := 20,
    memberships := [{ lineage := linW5, start_x := 0, end_x := 100 },
                    { lineage := linW7, start_x := 0, end_x := 100 }] }

/-- Bundle with no memberships at all, used by the lookup-failure witness. -/
def bunEmpty : Bundle := { diagram := dgmC1, start_x := 0, start_y := 300, margin := 5 }

/-- Merge parent of width 30 (first). -/
def parentW30A : Lineage := { id := 30, diagram := dgmC1, start_x := 0, start_y := -20, start_w := 30 }

/-- Merge parent of width 30 (second). -/
def parentW30B : Lineage := { id := 31, diagram := dgmC1, start_x := 0, start_y := 20, start_w := 30 }

/-- Merge parent of width 10 (first). -/
def parentW10A : Lineage := { id := 32, diagram := dgmC1, start_x := 0, start_y := -20, start_w := 10 }

/-- Merge parent of width 10 (second). -/
def parentW10B : Lineage := { id := 33, diagram := dgmC1, start_x := 0, start_y := 20, start_w := 10 }

theorem appendPiece_inv (acc : List Piece) (last : Pt) (q : Piece)
    (hc : ChainedPieces acc) (hl : ∀ p, acc.getLast? = some p → pieceEnd p = last)
    (hq : pieceStart q = last) :
    ChainedPieces (acc ++ [q]) ∧
      ∀ p, (acc ++ [q]).getLast? = some p → pieceEnd p = pieceEnd q := by
  constructor
  · unfold ChainedPieces at hc ⊢
    rw [List.chain'_append]
    refine ⟨hc, List.chain'_singleton _, ?_⟩
    intro x hx y hy
    simp only [List.head?_cons, Option.mem_def, Option.some.injEq] at hy
    subst hy
    rw [hq, hl x (Option.mem_def.mp hx)]
  · intro p hp
    rw [List.getLast?_concat] at hp
    cases hp
    rfl

theorem condAppend_inv (pieces : List Piece) (last target : Pt) (q : Piece)
    (hc : ChainedPieces pieces) (hl : ∀ p, pieces.getLast? = some p → pieceEnd p = last)
    (hstart : pieceStart q = last) (hend : pieceEnd q = target)
    (c : Prop) [Decidable c] (hneg : ¬ c → target = last) :
    ChainedPieces (if c then pieces ++ [q] else pieces) ∧
      ∀ p, (if c then pieces ++ [q] else pieces).getLast? = some p → pieceEnd p = target := by
  by_cases h : c
  · simp only [if_pos h]
    have ha := appendPiece_inv pieces last q hc hl hstart
    exact ⟨ha.1, fun p hp => (ha.2 p hp).trans hend⟩
  · simp only [if_neg h]
    exact ⟨hc, fun p hp => (hl p hp).trans (hneg h).symm⟩

theorem baselineStep_inv (acc : List Piece × Pt) (e : ShiftEvent)
    (hc : ChainedPieces acc.1) (hl : ∀ p, acc.1.getLast? = some p → pieceEnd p = acc.2) :
    ChainedPieces (baselineStep acc e).1 ∧
      ∀ p, (baselineStep acc e).1.getLast? = some p → pieceEnd p = (baselineStep acc e).2 := by
  obtain ⟨pieces, last⟩ := acc
  simp only [baselineStep]
  generalize (match e.to_y with | some y => y | none => 0) + e.offset_y = yEnd
  have h1 := condAppend_inv pieces last ⟨e.from_x, last.y⟩
    (Piece.line last ⟨e.from_x, last.y⟩) hc hl rfl rfl
    ((⟨e.from_x, last.y⟩ : Pt) ≠ last) (fun h => (not_not.mp h))
  exact condAppend_inv _ ⟨e.from_x, last.y⟩ ⟨e.to_x, yEnd⟩
    (Piece.cubic ⟨e.from_x, last.y⟩ ⟨(e.from_x + e.to_x) / 2, last.y⟩
      ⟨(e.from_x + e.to_x) / 2, yEnd⟩ ⟨e.to_x, yEnd⟩)
    h1.1 h1.2 rfl rfl _ (fun h => (not_not.mp h).symm)

theorem baselineFold_inv (events : List ShiftEvent) :
    ∀ acc : List Piece × Pt,
      ChainedPieces acc.1 → (∀ p, acc.1.getLast? = some p → pieceEnd p = acc.2) →
      ChainedPieces (events.foldl baselineStep acc).1 ∧
        ∀ p, (events.foldl baselineStep acc).1.getLast? = some p →
          pieceEnd p = (events.foldl baselineStep acc).2 := by
  induction events with
  | nil => intro acc hc hl; exact ⟨hc, hl⟩
  | cons e rest ih =>
      intro acc hc hl
      have h := baselineStep_inv acc e hc hl
      simpa using ih (baselineStep acc e) h.1 h.2

theorem getBaselinePath_inv (start_x start_y : ℚ) (end_x : Option ℚ)
    (events : List ShiftEvent) :
    ChainedPieces (getBaselinePath start_x start_y end_x events) ∧
      ∀ p, (getBaselinePath start_x start_y end_x events).getLast? = some p →
        (pieceEnd p).x = end_x.getD 999999 := by
  have h := baselineFold_inv (sortShiftEvents events) ([], ⟨start_x, start_y⟩)
    (by unfold ChainedPieces; exact List.chain'_nil) (by intro p hp; cases hp)
  simp only [getBaselinePath]
  set r := (sortShiftEvents events).foldl baselineStep ([], (⟨start_x, start_y⟩ : Pt)) with hr
  by_cases hcase : (⟨end_x.getD 999999, r.2.y⟩ : Pt) ≠ r.2
  · simp only [if_pos hcase]
    have ha := appendPiece_inv r.1 r.2 (Piece.line r.2 ⟨end_x.getD 999999, r.2.y⟩) h.1 h.2 rfl
    refine ⟨ha.1, fun p hp => ?_⟩
    rw [ha.2 p hp]
    rfl
  · simp only [if_neg hcase]
    refine ⟨h.1, fun p hp => ?_⟩
    have h2 := h.2 p hp
    have h3 : r.2 = (⟨end_x.getD 999999, r.2.y⟩ : Pt) := (not_not.mp hcase).symm
    rw [h2, h3]

/-- C6: for every ShiftablePath with a defined `end_x` and any list of shift
events, the baseline produced by `get_baseline_path` is continuous at every
piece boundary (each emitted piece begins at the point where the previous
piece ended), and its last piece ends exactly at X = `end_x` (exact equality,
hence within any numerical tolerance). -/
theorem c6_baseline_continuity (start_x start_y e : ℚ) (events : List ShiftEvent) :
    ChainedPieces (getBaselinePath start_x start_y (some e) events) ∧
      ∀ p, (getBaselinePath start_x start_y (some e) events).getLast? = some p →
        (pieceEnd p).x = e := by
  have h := getBaselinePath_inv start_x start_y (some e) events
  exact ⟨h.1, fun p hp => h.2 p hp⟩

attribute [local semireducible] Rat.add Rat.mul Rat.sub Rat.inv in
/-- Witness for C6: a concrete bounded path with one shift event; its curve
is chained and its last piece ends at the declared `end_x = 800`. -/
theorem c6_baseline_continuity_witness :
    ChainedPieces (getBaselinePath 0 50 (some 800)
      [{ from_x := 100, to_x := 200, to_y := some 150 }]) ∧
    (pieceEnd (Piece.line ⟨200, 150⟩ ⟨800, 150⟩)).x = 800 := by
  constructor
  · exact (c6_baseline_continuity 0 50 800
      [{ from_x := 100, to_x := 200, to_y := some 150 }]).1
  · exact (c6_baseline_continuity 0 50 800
      [{ from_x := 100, to_x := 200, to_y := some 150 }]).2
      (Piece.line ⟨200, 150⟩ ⟨800, 150⟩) (by decide)

attribute [local semireducible] Rat.add Rat.mul Rat.sub Rat.inv in
/-- Counterexample for C3 as stated: a ShiftablePath with undefined `end_x`
ends at the hard-coded sentinel X = 999999, not at the diagram's view width
(2000 for the diagram used throughout); `get_baseline_path` never consults
the diagram. -/
theorem c3_counterexample :
    ((getBaselinePath 0 50 none []).getLast?.map (fun p => (pieceEnd p).x)) = some 999999 ∧
      (999999 : ℚ) ≠ dgmC1.view_width := by
  constructor
  · decide
  · decide

/-- C3 amended: for every ShiftablePath whose `end_x` is undefined, the
curve produced by `get_baseline_path` ends at the large sentinel
X = 999999.0 ("infinite existence"), regardless of the diagram's view
width. -/
theorem c3_unbounded_ends_at_sentinel (start_x start_y : ℚ) (events : List ShiftEvent) :
    ∀ p, (getBaselinePath start_x start_y none events).getLast? = some p →
      (pieceEnd p).x = 999999 := by
  have h := getBaselinePath_inv start_x start_y none events
  exact fun p hp => h.2 p hp

attribute [local semireducible] Rat.add Rat.mul Rat.sub Rat.inv in
/-- Witness for C3's amended theorem at a concrete unbounded path. -/
theorem c3_unbounded_ends_at_sentinel_witness :
    (pieceEnd (Piece.line ⟨0, 50⟩ ⟨999999, 50⟩)).x = 999999 := by
  exact c3_unbounded_ends_at_sentinel 0 50 [] (Piece.line ⟨0, 50⟩ ⟨999999, 50⟩) (by decide)

attribute [local semireducible] Rat.add Rat.mul Rat.sub Rat.inv in
/-- C5: width profile of a ScalablePath with `start_w = 10`, no `end_x`, and
the single scale event `{from_x: 100, to_x: 200, to_w: 20}`: width 10 at 50
and at 100, width 20 at 200, and at 150 the width is strictly between 10 and
20 and equals `10 + 10 * smootherstep(0.5)`. -/
theorem c5_width_profile :
    getWidthAt 10 none [⟨100, 200, 20⟩] 50 = 10 ∧
    getWidthAt 10 none [⟨100, 200, 20⟩] 100 = 10 ∧
    getWidthAt 10 none [⟨100, 200, 20⟩] 200 = 20 ∧
    10 < getWidthAt 10 none [⟨100, 200, 20⟩] 150 ∧
    getWidthAt 10 none [⟨100, 200, 20⟩] 150 < 20 ∧
    getWidthAt 10 none [⟨100, 200, 20⟩] 150 = 10 + 10 * smootherstep (1/2) := by
  refine ⟨?_, ?_, ?_, ?_, ?_, ?_⟩ <;> decide

/-- C7: for every ScalablePath with a defined `end_x` and every `x` strictly
past it, `get_width_at` returns exactly 0 whatever the scale events are. -/
theorem c7_width_zero_after_end (start_w e : ℚ) (scale_events : List ScaleEvent)
    (x : ℚ) (hx : e < x) :
    getWidthAt start_w (some e) scale_events x = 0 := by
  simp [getWidthAt, hx]

/-- Witness for C7 at a concrete terminated path queried past its end. -/
theorem c7_width_zero_after_end_witness :
    (100 : ℚ) < 101 ∧ getWidthAt 10 (some 100) [⟨50, 80, 30⟩] 101 = 0 :=
  ⟨by norm_num, c7_width_zero_after_end 10 100 [⟨50, 80, 30⟩] 101 (by norm_num)⟩

theorem leaveUpdate_spec (l : Lineage) (fx tx : ℚ) :
    ∀ (ms : List BundleMembership) (i : ℕ),
      ms.findIdx? (fun m => decide (m.lineage = l ∧ m.start_x ≤ fx ∧ fx ≤ m.end_x)) = some i →
      ∃ m, ms[i]? = some m ∧
        leaveUpdateMemberships l fx tx ms =
          ms.take i ++ [{ m with end_x := tx, fade_out_duration := tx - fx }] ++
            ms.drop (i + 1) := by
  intro ms
  induction ms with
  | nil => intro i hi; simp [List.findIdx?] at hi
  | cons m ms ih =>
      intro i hi
      rw [List.findIdx?_cons] at hi
      by_cases hm : m.lineage = l ∧ m.start_x ≤ fx ∧ fx ≤ m.end_x
      · rw [if_pos (by simpa using hm)] at hi
        obtain rfl : (0 : ℕ) = i := by simpa using hi
        refine ⟨m, by simp, ?_⟩
        simp [leaveUpdateMemberships, hm]
      · rw [if_neg (by simpa using hm), List.findIdx?_succ] at hi
        obtain ⟨j, hj, rfl⟩ : ∃ j, ms.findIdx?
            (fun m => decide (m.lineage = l ∧ m.start_x ≤ fx ∧ fx ≤ m.end_x)) = some j ∧
            j + 1 = i := by
          cases hfind : ms.findIdx?
              (fun m => decide (m.lineage = l ∧ m.start_x ≤ fx ∧ fx ≤ m.end_x)) with
          | none => rw [hfind] at hi; simp at hi
          | some j => rw [hfind] at hi; exact ⟨j, rfl, by simpa using hi⟩
        obtain ⟨mm, hmm, heq⟩ := ih j hj
        refine ⟨mm, by simpa using hmm, ?_⟩
        simp only [leaveUpdateMemberships, if_neg hm, heq, List.take_succ_cons,
          List.drop_succ_cons, List.cons_append]

/-- C9: `Lineage.leave(from_x, to_x, bundle, to_y)` back-patches exactly one
membership — the first one registered for this lineage whose
`[start_x, end_x]` interval contains `from_x` — replacing only its `end_x`
(with `to_x`) and `fade_out_duration` (with `to_x - from_x`); its other
fields (`lineage`, `start_x`, `fade_in_duration`) and every other membership
of the bundle are returned unchanged. -/
theorem c9_leave_patches_first_match (l : Lineage) (fx tx : ℚ) (b : Bundle)
    (aid : ℕ) (ty : Option ℚ) (tl : Option ℕ) (oy : ℚ) (i : ℕ)
    (hi : b.memberships.findIdx?
        (fun m => decide (m.lineage = l ∧ m.start_x ≤ fx ∧ fx ≤ m.end_x)) = some i) :
    ∃ m, b.memberships[i]? = some m ∧
      (lineageLeave l fx tx b aid ty tl oy).2.memberships =
        b.memberships.take i ++
          [{ lineage := m.lineage, start_x := m.start_x, end_x := tx,
             fade_in_duration := m.fade_in_duration, fade_out_duration := tx - fx }] ++
          b.memberships.drop (i + 1) := by
  obtain ⟨m, hm, heq⟩ := leaveUpdate_spec l fx tx b.memberships i hi
  exact ⟨m, hm, heq⟩

attribute [local semireducible] Rat.add Rat.mul Rat.sub Rat.inv in
/-- Witness for C9: in a bundle with two memberships where only the second
matches, the leave patches exactly the second membership's `end_x` and
`fade_out_duration`. -/
theorem c9_leave_patches_first_match_witness :
    bunW.memberships.findIdx?
        (fun m => decide (m.lineage = linW7 ∧ m.start_x ≤ 40 ∧ (40 : ℚ) ≤ m.end_x)) = some 1 ∧
    ∃ m, bunW.memberships[1]? = some m ∧
      (lineageLeave linW7 40 60 bunW 0 (some 250) none 0).2.memberships =
        bunW.memberships.take 1 ++
          [{ lineage := m.lineage, start_x := m.start_x, end_x := 60,
             fade_in_duration := m.fade_in_duration, fade_out_duration := 60 - 40 }] ++
          bunW.memberships.drop 2 := by
  refine ⟨by decide, ?_⟩
  exact c9_leave_patches_first_match linW7 40 60 bunW 0 (some 250) none 0 1 (by decide)

theorem cacheAppend_keys (c : Cache) (k : Lineage) (u v : Pt) :
    (cacheAppend c k u v).map Prod.fst = c.map Prod.fst := by
  unfold cacheAppend
  rw [List.map_map]
  apply List.map_congr_left
  intro e _
  by_cases h : e.1 = k <;> simp [h]

theorem solveMembersLoop_keys (point normal : Pt) :
    ∀ (ms : List BundleMembership) (ws gs : List ℚ) (off : ℚ) (c : Cache),
      (solveMembersLoop point normal ms ws gs off c).map Prod.fst = c.map Prod.fst := by
  intro ms
  induction ms with
  | nil => intro ws gs off c; cases ws <;> cases gs <;> rfl
  | cons m ms ih =>
      intro ws gs off c
      cases ws with
      | nil => rfl
      | cons w ws =>
          cases gs with
          | nil => rfl
          | cons g gs =>
              simp only [solveMembersLoop]
              rw [ih, cacheAppend_keys]

theorem solveSample_keys (b : Bundle) (lens : List ℚ) (sq : ℚ → ℚ)
    (path : List Piece) (c : Cache) (t : ℚ) :
    (solveSample b lens sq path c t).map Prod.fst = c.map Prod.fst := by
  unfold solveSample
  by_cases h : (getMembershipsAt b (pathPointL lens path t).x).isEmpty
  · simp [h]
  · simp only [h, Bool.false_eq_true, if_false]
    exact solveMembersLoop_keys _ _ _ _ _ _ _

theorem foldl_solveSample_keys (b : Bundle) (lens : List ℚ) (sq : ℚ → ℚ)
    (path : List Piece) :
    ∀ (ts : List ℚ) (c : Cache),
      ((ts.foldl (solveSample b lens sq path) c).map Prod.fst) = c.map Prod.fst := by
  intro ts
  induction ts with
  | nil => intro c; rfl
  | cons t ts ih => intro c; rw [List.foldl_cons, ih, solveSample_keys]

theorem dedupKeysGo_mem (k : Lineage) :
    ∀ (ls seen : List Lineage), k ∈ ls → k ∉ seen → k ∈ dedupKeysGo seen ls := by
  intro ls
  induction ls with
  | nil => intro seen hk _; cases hk
  | cons l ls ih =>
      intro seen hk hseen
      by_cases hl : l ∈ seen
      · simp only [dedupKeysGo, if_pos hl]
        rcases List.mem_cons.mp hk with rfl | hk2
        · exact absurd hl hseen
        · exact ih seen hk2 hseen
      · simp only [dedupKeysGo, if_neg hl]
        rcases List.mem_cons.mp hk with rfl | hk2
        · exact List.mem_cons_self _ _
        · by_cases hkl : k = l
          · subst hkl; exact List.mem_cons_self _ _
          · exact List.mem_cons_of_mem _
              (ih (l :: seen) hk2 (by simp [hkl, hseen]))

theorem find?_isSome_of_mem_keys (c : Cache) (k : Lineage)
    (hk : k ∈ c.map Prod.fst) :
    (c.find? (fun e => decide (e.1 = k))).isSome = true := by
  rw [List.find?_isSome]
  obtain ⟨e, he, hek⟩ := List.mem_map.mp hk
  exact ⟨e, he, by simp [hek]⟩

/-- C10: after `Bundle.solve_geometry`, the compiled point cache has an entry
for the lineage of every membership registered in the bundle, so
`get_compiled_points_for`'s missing-lineage branch (the "No precompiled
points" fallback returning two empty lists) is unreachable for registered
members: the cache lookup it guards on always succeeds. -/
theorem c10_solved_cache_covers_members (b : Bundle) (lens : List ℚ) (sq : ℚ → ℚ)
    (m : BundleMembership) (hm : m ∈ b.memberships) :
    ((solveGeometry b lens sq).find? (fun e => decide (e.1 = m.lineage))).isSome = true := by
  apply find?_isSome_of_mem_keys
  unfold solveGeometry
  rw [foldl_solveSample_keys, List.map_map]
  have : (Prod.fst ∘ fun l => ((l, ([], [])) : Lineage × (List Pt × List Pt))) = id := rfl
  rw [this, List.map_id]
  exact dedupKeysGo_mem m.lineage _ [] (List.mem_map_of_mem _ hm) (by simp)

attribute [local semireducible] Rat.add Rat.mul Rat.sub Rat.inv in
/-- Witness for C10: the registered member of the concrete join/leave bundle
has a cache entry after solving. -/
theorem c10_solved_cache_covers_members_witness :
    ({ lineage := linC1, start_x := 300, end_x := 1100, fade_in_duration := 100,
       fade_out_duration := 100 } : BundleMembership) ∈ bunC1.memberships ∧
    ((solveGeometry bunC1 [1] ratSqrt).find?
      (fun e => decide (e.1 = linC1))).isSome = true := by
  refine ⟨by decide, ?_⟩
  exact c10_solved_cache_covers_members bunC1 [1] ratSqrt
    { lineage := linC1, start_x := 300, end_x := 1100, fade_in_duration := 100,
      fade_out_duration := 100 } (by decide)

theorem memberScan_not_found (lin : Lineage) (point normal : Pt) :
    ∀ (ms : List BundleMembership) (ws gs : List ℚ) (off : ℚ),
      lin ∉ ms.map (fun m => m.lineage) →
      memberScan lin point normal ms ws gs off = (point, point) := by
  intro ms
  induction ms with
  | nil => intro ws gs off _; cases ws <;> cases gs <;> rfl
  | cons m ms ih =>
      intro ws gs off h
      cases ws with
      | nil => rfl
      | cons w ws =>
          cases gs with
          | nil => rfl
          | cons g gs =>
              simp only [List.map_cons, List.mem_cons, not_or] at h
              have hne : ¬ (m.lineage = lin) := fun he => h.1 he.symm
              simp only [memberScan, if_neg hne]
              exact ih ws gs _ h.2

/-- C8: querying a bundle for a member that is not among the members stacked
at the query position is recoverable: `_get_member_geometry_at` reports the
error and falls back to the bundle centerline, returning the baseline point
itself as both upper and lower boundary (so the member-center query returns
the centerline point); and `get_compiled_points_for` for a lineage absent
from the compiled cache reports the error and returns two empty point
lists.  The Python error reports are `print` calls on exactly these two
fallback branches, which the conclusions show are the branches taken. -/
theorem c8_lookup_failure_fallback (b : Bundle) (lens : List ℚ) (sq : ℚ → ℚ)
    (x : ℚ) (lin : Lineage) (cache : Cache) (sx ex : ℚ)
    (hmem : lin ∉ (getMembershipsAt b
        (pathPointL lens (bundleBaselinePath b)
          (findTAtX lens (bundleBaselinePath b) x)).x).map (fun m => m.lineage))
    (hcache : cache.find? (fun e => decide (e.1 = lin)) = none) :
    getMemberGeometryAt b lens sq x lin =
      (pathPointL lens (bundleBaselinePath b) (findTAtX lens (bundleBaselinePath b) x),
       pathPointL lens (bundleBaselinePath b) (findTAtX lens (bundleBaselinePath b) x)) ∧
    getCompiledPointsFor b lens sq cache lin sx ex = ([], []) := by
  constructor
  · simp only [getMemberGeometryAt]
    exact memberScan_not_found lin _ _ _ _ _ _ hmem
  · simp only [getCompiledPointsFor, hcache]

attribute [local semireducible] Rat.add Rat.mul Rat.sub Rat.inv in
/-- Witness for C8: a bundle with no memberships queried for an unregistered
lineage, and an empty cache queried for the same lineage. -/
theorem c8_lookup_failure_fallback_witness :
    (linC1 ∉ (getMembershipsAt bunEmpty
        (pathPointL [1] (bundleBaselinePath bunEmpty)
          (findTAtX [1] (bundleBaselinePath bunEmpty) 10)).x).map (fun m => m.lineage)) ∧
    getMemberGeometryAt bunEmpty [1] ratSqrt 10 linC1 =
      (pathPointL [1] (bundleBaselinePath bunEmpty)
        (findTAtX [1] (bundleBaselinePath bunEmpty) 10),
       pathPointL [1] (bundleBaselinePath bunEmpty)
        (findTAtX [1] (bundleBaselinePath bunEmpty) 10)) ∧
    getCompiledPointsFor bunEmpty [1] ratSqrt [] linC1 0 1 = ([], []) := by
  have h := c8_lookup_failure_fallback bunEmpty [1] ratSqrt 10 linC1 [] 0 1
    (by decide) (by decide)
  exact ⟨by decide, h.1, h.2⟩

theorem zipWith_width_replicate_one (f : BundleMembership → ℚ) :
    ∀ ms : List BundleMembership,
      List.zipWith (fun m fac => f m * fac) ms (List.replicate ms.length (1 : ℚ)) =
        ms.map f := by
  intro ms
  induction ms with
  | nil => rfl
  | cons m ms ih => simp [List.replicate_succ, ih]

theorem applyStartCorrection_zero (l : List ℚ) (e : ℚ) (he : e ≤ 1/100000) :
    applyStartCorrection l e = l := by
  cases l with
  | nil => rfl
  | cons g gs => simp only [applyStartCorrection, if_pos he]

theorem getLastD_replicate_one : ∀ (n : ℕ) (d : ℚ),
    (List.replicate (n + 1) (1 : ℚ)).getLastD d = 1 := by
  intro n
  induction n with
  | zero => intro d; rfl
  | succ k ih =>
      intro d
      rw [List.replicate_succ, List.getLastD_cons]
      exact ih 1

theorem calculateLayout_full_presence (b : Bundle) (ms : List BundleMembership) (x : ℚ)
    (hN : ms ≠ []) (hf : ∀ m ∈ ms, getFactor m x = 1) :
    calculateLayout b ms x =
      (ms.map (fun m => lineageWidthAt m.lineage x),
       List.replicate (ms.length - 1) b.margin ++ [0]) := by
  have hfac : ms.map (fun m => getFactor m x) = List.replicate ms.length (1 : ℚ) := by
    rw [List.eq_replicate_iff]
    constructor
    · simp
    · intro c hc
      obtain ⟨m, hm, rfl⟩ := List.mem_map.mp hc
      exact hf m hm
  obtain ⟨m0, ms0, rfl⟩ := List.exists_cons_of_ne_nil hN
  simp only [calculateLayout, hfac]
  refine Prod.ext ?_ ?_
  · simpa using zipWith_width_replicate_one (fun m => lineageWidthAt m.lineage x) (m0 :: ms0)
  · simp only [List.length_cons]
    cases ms0 with
    | nil => simp
    | cons m1 ms1 =>
        have hcount : 1 < ms1.length + 1 + 1 := by omega
        simp only [List.length_cons, if_pos hcount, if_pos (by omega : 0 < ms1.length + 1 + 1)]
        rw [List.tail_replicate, List.zipWith_replicate]
        have hmin : (ms1.length + 1 + 1) ⊓ (ms1.length + 1 + 1 - 1) = ms1.length + 1 := by omega
    
        rw [hmin]
        have hhead : (List.replicate (ms1.length + 1 + 1) (1 : ℚ)).headI = 1 := by
          rw [List.replicate_succ]; rfl
        have hlast : (List.replicate (ms1.length + 1 + 1) (1 : ℚ)).getLastD 0 = 1 := by
          exact getLastD_replicate_one (ms1.length + 1) 0
        rw [hhead, hlast]
        have hex : 1/2 * b.margin * (1 - 1) ≤ 1/100000 := by norm_num
        rw [applyStartCorrection_zero _ _ hex]
        unfold applyEndCorrection
        rw [applyStartCorrection_zero _ _ hex, List.reverse_reverse]
        have hval : 1/2 * b.margin * ((1 : ℚ) + 1) = b.margin := by ring
        rw [hval]
        simp

theorem stackOffsets_replicate_margin (mrg : ℚ) :
    ∀ (ws : List ℚ) (off : ℚ), ws ≠ [] →
      stackOffsets ws (List.replicate (ws.length - 1) mrg ++ [0]) off =
        (List.range ws.length).map
          (fun i => off + (ws.take i).sum + (i : ℚ) * mrg) := by
  intro ws
  induction ws with
  | nil => intro off h; exact absurd rfl h
  | cons w ws ih =>
      intro off _
      cases ws with
      | nil =>
          simp [stackOffsets, List.range_succ]
      | cons w2 ws2 =>
          have hlen2 : (w :: w2 :: ws2).length - 1 = (w2 :: ws2).length := by simp
          rw [hlen2]
          rw [show List.replicate (w2 :: ws2).length mrg =
              mrg :: List.replicate ((w2 :: ws2).length - 1) mrg from by
            simp [List.replicate_succ]]
          rw [List.cons_append]
          show off :: stackOffsets (w2 :: ws2)
              (List.replicate ((w2 :: ws2).length - 1) mrg ++ [0]) (off + w + mrg) = _
          rw [ih (off + w + mrg) (by simp)]
          have hr : List.range (w :: w2 :: ws2).length =
              0 :: (List.range (w2 :: ws2).length).map Nat.succ := by
            exact List.range_succ_eq_map (w2 :: ws2).length
          rw [hr]
          simp only [List.map_cons, List.map_map]
          refine List.cons_eq_cons.mpr ⟨by simp, ?_⟩
          apply List.map_congr_left
          intro i _
          simp only [Function.comp_apply, List.take_succ_cons, List.sum_cons, Nat.succ_eq_add_one,
            Nat.cast_add, Nat.cast_one]
          ring

attribute [local semireducible] Rat.add Rat.mul Rat.sub Rat.inv in
/-- C2: at any X where the bundle's active members are all at full presence
(`_get_factor` exactly 1), `_calculate_layout` gives every member its raw
lineage width, the total lane width (`sum(widths) + sum(gaps)`) equals the
sum of the member widths plus `margin * (N - 1)`, and the stacking offsets
of the solver loop (starting at `-total/2`, advancing by `width + gap` in
registration order) are `-total/2 + sum(first i widths) + i*margin`: the
first slot starts at `-total/2`, the last slot ends at `total/2`, and a
nonnegative margin keeps adjacent slots non-overlapping. -/
theorem c2_bundle_width_conservation (b : Bundle) (x : ℚ) (ms : List BundleMembership)
    (hms : getMembershipsAt b x = ms) (hN : ms ≠ [])
    (hf : ∀ m ∈ ms, getFactor m x = 1) (hmargin : 0 ≤ b.margin) :
    (calculateLayout b ms x).1 = ms.map (fun m => lineageWidthAt m.lineage x) ∧
    (calculateLayout b ms x).1.sum + (calculateLayout b ms x).2.sum =
      (ms.map (fun m => lineageWidthAt m.lineage x)).sum +
        b.margin * ((ms.length : ℚ) - 1) ∧
    stackOffsets (calculateLayout b ms x).1 (calculateLayout b ms x).2
        (-(((calculateLayout b ms x).1.sum + (calculateLayout b ms x).2.sum) / 2)) =
      (List.range ms.length).map (fun i =>
        -(((calculateLayout b ms x).1.sum + (calculateLayout b ms x).2.sum) / 2) +
          ((ms.map (fun m => lineageWidthAt m.lineage x)).take i).sum + (i : ℚ) * b.margin) ∧
    (∀ i : ℕ, i + 1 < ms.length →
      (stackOffsets (calculateLayout b ms x).1 (calculateLayout b ms x).2
          (-(((calculateLayout b ms x).1.sum + (calculateLayout b ms x).2.sum) / 2))).getD i 0 +
        ((calculateLayout b ms x).1).getD i 0 ≤
      (stackOffsets (calculateLayout b ms x).1 (calculateLayout b ms x).2
          (-(((calculateLayout b ms x).1.sum + (calculateLayout b ms x).2.sum) / 2))).getD
          (i + 1) 0) := by
  clear hms
  have hlay := calculateLayout_full_presence b ms x hN hf
  set ws := ms.map (fun m => lineageWidthAt m.lineage x) with hws
  have hlen : ws.length = ms.length := by simp [hws]
  have hwsne : ws ≠ [] := by
    intro h
    exact hN (List.map_eq_nil_iff.mp h)
  have hsumg : (List.replicate (ms.length - 1) b.margin ++ [(0 : ℚ)]).sum =
      b.margin * ((ms.length : ℚ) - 1) := by
    obtain ⟨m0, ms0, rfl⟩ := List.exists_cons_of_ne_nil hN
    simp only [List.length_cons, Nat.add_sub_cancel, List.sum_append, List.sum_replicate,
      List.sum_cons, List.sum_nil, smul_eq_mul, nsmul_eq_mul]
    push_cast
    ring
  have hstack := stackOffsets_replicate_margin b.margin ws
    (-((ws.sum + b.margin * ((ms.length : ℚ) - 1)) / 2)) hwsne
  rw [hlen] at hstack
  refine ⟨by rw [hlay], ?_, ?_, ?_⟩
  · rw [hlay]
    simpa using hsumg
  · rw [hlay]
    simp only [hsumg]
    exact hstack
  · intro i hi
    rw [hlay]
    simp only [hsumg]
    rw [hstack]
    have hi1 : i < ms.length := by omega
    have hiw : i < ws.length := by rw [hlen]; exact hi1
    have hoff1 : (((List.range ms.length).map (fun i =>
        -((ws.sum + b.margin * ((ms.length : ℚ) - 1)) / 2) +
          (ws.take i).sum + (i : ℚ) * b.margin)).getD i 0) =
        -((ws.sum + b.margin * ((ms.length : ℚ) - 1)) / 2) +
          (ws.take i).sum + (i : ℚ) * b.margin := by
      rw [List.getD_eq_getElem?_getD, List.getElem?_map, List.getElem?_range hi1]
      rfl
    have hoff2 : (((List.range ms.length).map (fun i =>
        -((ws.sum + b.margin * ((ms.length : ℚ) - 1)) / 2) +
          (ws.take i).sum + (i : ℚ) * b.margin)).getD (i + 1) 0) =
        -((ws.sum + b.margin * ((ms.length : ℚ) - 1)) / 2) +
          (ws.take (i + 1)).sum + ((i : ℚ) + 1) * b.margin := by
      rw [List.getD_eq_getElem?_getD, List.getElem?_map, List.getElem?_range hi]
      show -((ws.sum + b.margin * ((ms.length : ℚ) - 1)) / 2) +
          (ws.take (i + 1)).sum + ((i + 1 : ℕ) : ℚ) * b.margin = _
      push_cast
      ring
    have hwsd : ws.getD i 0 = ws[i] := by
      rw [List.getD_eq_getElem?_getD, List.getElem?_eq_getElem hiw]
      rfl
    rw [hoff1, hoff2, hwsd, List.sum_take_succ ws i hiw]
    linarith [hmargin]

attribute [local semireducible] Rat.add Rat.mul Rat.sub Rat.inv in
/-- Witness for C2: the concrete two-member bundle at X = 50 (both members
fully present) satisfies the total-lane-width law. -/
theorem c2_bundle_width_conservation_witness :
    (calculateLayout bunW bunW.memberships 50).1.sum +
        (calculateLayout bunW bunW.memberships 50).2.sum =
      (bunW.memberships.map (fun m => lineageWidthAt m.lineage 50)).sum +
        bunW.margin * ((bunW.memberships.length : ℚ) - 1) := by
  have h := c2_bundle_width_conservation bunW 50 bunW.memberships (by decide) (by decide)
    (by decide) (by decide)
  exact h.2.1

attribute [local semireducible] Rat.add Rat.mul Rat.sub Rat.inv in
/-- Counterexample for C4 as stated: two parents of equal width 30 merging
into a child of width 40 (centered at 0) get target widths of 30 each and
clamped centers -5 and 5, so the first band `[-20, 10]` and the second band
`[-10, 20]` overlap on `(-10, 10)` — the bands do not stack without
overlapping (they do fill the child's span, but not disjointly). -/
theorem c4_counterexample :
    (calculateMergeLayout [parentW30A, parentW30B] 100 200 0 40).1 = [30, 30] ∧
    (calculateMergeLayout [parentW30A, parentW30B] 100 200 0 40).2 = [-5, 5] ∧
    (5 : ℚ) - 30 / 2 < (-5 : ℚ) + 30 / 2 := by
  refine ⟨by decide, by decide, by decide⟩

/-- C4 amended: for a merge of two parents of equal width `w ≥ 0` into a
child of width `W ≥ 0`, each resolved target width is at most `W`; and when
additionally `w ≤ W/2` (each parent no wider than its proportional half),
both targets resolve to exactly `W/2` with centers `y - W/4` and `y + W/4`,
so the two bands are `[y - W/2, y]` and `[y, y + W/2]`: they tile the
child's vertical span exactly and do not overlap.  For `w > W/2` the clamped
bands overlap (see the counterexample). -/
theorem c4_merge_width_amended (p1 p2 : Lineage) (mfx sx y W w : ℚ)
    (hw1 : lineageWidthAt p1 mfx = w) (hw2 : lineageWidthAt p2 mfx = w)
    (hw0 : 0 ≤ w) (hW : 0 ≤ W) :
    (∀ tw ∈ (calculateMergeLayout [p1, p2] mfx sx y W).1, tw ≤ W) ∧
    (w ≤ W / 2 →
      calculateMergeLayout [p1, p2] mfx sx y W = ([W/2, W/2], [y - W/4, y + W/4]) ∧
      (y - W/4) - (W/2)/2 = y - W/2 ∧ (y - W/4) + (W/2)/2 = y ∧
      (y + W/4) - (W/2)/2 = y ∧ (y + W/4) + (W/2)/2 = y + W/2) := by
  have hprop : (if 0 < ([w, w] : List ℚ).sum then
        [w / ([w, w] : List ℚ).sum, w / ([w, w] : List ℚ).sum]
      else [1 / (([p1, p2].length : ℕ) : ℚ), 1 / (([p1, p2].length : ℕ) : ℚ)])
      = [1/2, 1/2] := by
    have hsum : ([w, w] : List ℚ).sum = 2 * w := by simp; ring
    rcases eq_or_lt_of_le hw0 with heq | hpos
    · rw [if_neg (by rw [hsum, ← heq]; norm_num)]
      norm_num
    · rw [if_pos (by rw [hsum]; linarith), hsum]
      have hdiv : w / (2 * w) = 1 / 2 := by
        rw [div_eq_div_iff (by linarith) (by norm_num)]
        ring
      rw [hdiv]
  constructor
  · intro tw htw
    simp only [calculateMergeLayout, List.map_cons, List.map_nil, hw1, hw2, hprop,
      List.zipWith_cons_cons, List.zipWith_nil_right, List.zipWith_nil, List.mem_cons,
      List.not_mem_nil, or_false] at htw
    rcases htw with rfl | rfl
    · exact min_le_right _ _
    · exact min_le_right _ _
  · intro hhalf
    refine ⟨?_, by ring, by ring, by ring, by ring⟩
    have hmax : max w (W * (1/2)) = W / 2 := by
      rw [max_eq_right (by linarith)]
      ring
    have hmin : min (W / 2) W = W / 2 := min_eq_left (by linarith)
    simp only [calculateMergeLayout, List.map_cons, List.map_nil, hw1, hw2, hprop,
      List.zipWith_cons_cons, List.zipWith_nil_right, List.zipWith_nil, centersWalk,
      hmax, hmin]
    have e1 : y - W / 2 + W * (1/2) / 2 = y - W / 4 := by ring
    have e2 : y - W / 2 + W * (1/2) + W * (1/2) / 2 = y + W / 4 := by ring
    rw [e1, e2]
    have hif1 : ¬ (y + W / 2 < y - W / 4 + W / 2 / 2) := by intro h; linarith
    have hif2 : ¬ (y - W / 4 - W / 2 / 2 < y - W / 2) := by intro h; linarith
    have hif3 : ¬ (y + W / 2 < y + W / 4 + W / 2 / 2) := by intro h; linarith
    have hif4 : ¬ (y + W / 4 - W / 2 / 2 < y - W / 2) := by intro h; linarith
    rw [if_neg hif1, if_neg hif2, if_neg hif3, if_neg hif4]

attribute [local semireducible] Rat.add Rat.mul Rat.sub Rat.inv in
/-- Witness for C4's amended theorem: equal parents of width 10 into a child
of width 40 centered at 0 resolve to width 20 each at centers -10 and 10. -/
theorem c4_merge_width_amended_witness :
    calculateMergeLayout [parentW10A, parentW10B] 100 200 0 40 = ([20, 20], [-10, 10]) := by
  have h := c4_merge_width_amended parentW10A parentW10B 100 200 0 40 10
    (by decide) (by decide) (by norm_num) (by norm_num)
  have h2 := (h.2 (by norm_num)).1
  rw [h2]
  norm_num

theorem linspace_plus_two_getLast (k : ℕ) : (linspace (k + 2)).getLast? = some 1 := by
  have h1 : linspace (k + 2) =
      (List.range (k + 1)).map (fun i : ℕ => (i : ℚ) / ((k : ℚ) + 1)) ++
        [((k + 1 : ℕ) : ℚ) / ((k : ℚ) + 1)] := by
    show (List.range (k + 2)).map (fun i : ℕ => (i : ℚ) / ((k : ℚ) + 1)) = _
    rw [List.range_succ, List.map_append]
    rfl
  rw [h1, List.getLast?_concat]
  congr 1
  push_cast
  rw [div_self (by positivity)]

theorem linspace_max_two_getLast (k : ℕ) : (linspace (max 2 k)).getLast? = some 1 := by
  obtain ⟨j, hj⟩ : ∃ j, max 2 k = j + 2 := ⟨max 2 k - 2, by omega⟩
  rw [hj]
  exact linspace_plus_two_getLast j

attribute [local semireducible] Rat.add Rat.mul Rat.sub Rat.inv in
theorem seg1_compile_getLast (nsamp : ℕ → ℕ) :
    (compileIndependent ratSqrt nsamp 0 500 10 400
      [{ from_x := 300, to_x := 400, to_y := some 500 }] []).1.getLast? =
        some ⟨400, 495⟩ ∧
    (compileIndependent ratSqrt nsamp 0 500 10 400
      [{ from_x := 300, to_x := 400, to_y := some 500 }] []).2.getLast? =
        some ⟨400, 505⟩ := by
  have henum : (getBaselinePath 0 500 (some 400)
      [{ from_x := 300, to_x := 400, to_y := some 500 }]).enum =
      [(0, Piece.line ⟨0, 500⟩ ⟨300, 500⟩),
       (1, Piece.cubic ⟨300, 500⟩ ⟨350, 500⟩ ⟨350, 500⟩ ⟨400, 500⟩)] := by decide
  have hstep : ((getBaselinePath 0 500 (some 400)
      [{ from_x := 300, to_x := 400, to_y := some 500 }]).enum.flatMap (fun ip =>
        pieceSamples ratSqrt 10 400 [] (nsamp ip.1) ip.2)) =
      pieceSamples ratSqrt 10 400 [] (nsamp 0) (Piece.line ⟨0, 500⟩ ⟨300, 500⟩) ++
      (linspace (max 2 (nsamp 1))).map (independentSample ratSqrt 10 400 []
        (Piece.cubic ⟨300, 500⟩ ⟨350, 500⟩ ⟨350, 500⟩ ⟨400, 500⟩)) := by
    rw [henum]
    simp only [List.flatMap_cons, List.flatMap_nil, List.append_nil]
    congr 1
  constructor
  · rw [show (compileIndependent ratSqrt nsamp 0 500 10 400
        [{ from_x := 300, to_x := 400, to_y := some 500 }] []).1 =
        (((getBaselinePath 0 500 (some 400)
          [{ from_x := 300, to_x := 400, to_y := some 500 }]).enum.flatMap (fun ip =>
            pieceSamples ratSqrt 10 400 [] (nsamp ip.1) ip.2)).map Prod.fst) from rfl]
    rw [hstep, List.map_append, List.getLast?_append, List.map_map, List.getLast?_map,
      linspace_max_two_getLast]
    rw [show Option.map (Prod.fst ∘ independentSample ratSqrt 10 400 []
        (Piece.cubic ⟨300, 500⟩ ⟨350, 500⟩ ⟨350, 500⟩ ⟨400, 500⟩)) (some 1) =
        some ⟨400, 495⟩ from by decide]
    rfl
  · rw [show (compileIndependent ratSqrt nsamp 0 500 10 400
        [{ from_x := 300, to_x := 400, to_y := some 500 }] []).2 =
        (((getBaselinePath 0 500 (some 400)
          [{ from_x := 300, to_x := 400, to_y := some 500 }]).enum.flatMap (fun ip =>
            pieceSamples ratSqrt 10 400 [] (nsamp ip.1) ip.2)).map Prod.snd) from rfl]
    rw [hstep, List.map_append, List.getLast?_append, List.map_map, List.getLast?_map,
      linspace_max_two_getLast]
    rw [show Option.map (Prod.snd ∘ independentSample ratSqrt 10 400 []
        (Piece.cubic ⟨300, 500⟩ ⟨350, 500⟩ ⟨350, 500⟩ ⟨400, 500⟩)) (some 1) =
        some ⟨400, 505⟩ from by decide]
    rfl

set_option maxRecDepth 100000 in
attribute [local semireducible] Rat.add Rat.mul Rat.sub Rat.inv in
/-- C1 (code bug): the join/leave round-trip scenario — a lineage starting
at `(0,500)` with width 10 that joins the bundle over `[300, 400]`, leaves
it over `[1000, 1100]` and terminates at the end of the leave transition.
The state machine of `Lineage.compile_segments` determines exactly the
segment sequence `[Independent, Dependent, Independent]` (first conjunct),
so the spec's sequence is the code's intent; but the independent-segment
object that state machine constructs carries its events only in
`_shift_events`/`_scale_events` while the inherited geometry methods read
the never-assigned `shift_events` (second conjunct), so its `compile()`
raises `AttributeError` for every sample count instead of producing the
seam points (third conjunct) — on top of which `lineage.py` cannot even be
imported, since it requests the names `IndependantSegment` and
`DependantSegment` from `segments.py`, which defines `IndependentSegment`
and `DependentSegment`.  With the events wired as `compile`'s calls intend
(reading what the constructor stored), the claimed seam property does hold:
the last upper/lower boundary points of the first segment and the first
upper/lower boundary points of the dependent segment have Y coordinates
within `1/1000` of each other (fourth conjunct) — the claim describes the
intended behavior, and the code's attribute/name slips break it. -/
theorem c1_seam_code_bug :
    compileSegments envC1 ratSqrt linC1 =
      [Segment.independent dgmC1 0 500 10 400
         [{ from_x := 300, to_x := 400, to_y := some 500 }] [],
       Segment.dependent dgmC1 0 linC1 400 1000,
       Segment.independent dgmC1 1000 500 10 1100
         [{ from_x := 1000, to_x := 1100, to_y := some 800 }] []] ∧
    (mkIndependentSegment dgmC1 0 500 10 400
      [{ from_x := 300, to_x := 400, to_y := some 500 }] []).shift_events = none ∧
    (∀ nsamp : ℕ → ℕ,
      segmentCompileChecked envC1 ratSqrt nsamp cachesC1
        (Segment.independent dgmC1 0 500 10 400
          [{ from_x := 300, to_x := 400, to_y := some 500 }] []) =
      .error "AttributeError: shift_events") ∧
    (∀ nsamp : ℕ → ℕ, ∃ pA pA' pB pB' : Pt,
      (compileIndependent ratSqrt nsamp 0 500 10 400
        [{ from_x := 300, to_x := 400, to_y := some 500 }] []).1.getLast? = some pA ∧
      (compileIndependent ratSqrt nsamp 0 500 10 400
        [{ from_x := 300, to_x := 400, to_y := some 500 }] []).2.getLast? = some pA' ∧
      (getCompiledPointsFor bunC1 [1] ratSqrt (cachesC1 0) linC1 400 1000).1.head? =
        some pB ∧
      (getCompiledPointsFor bunC1 [1] ratSqrt (cachesC1 0) linC1 400 1000).2.head? =
        some pB' ∧
      |pA.y - pB.y| < 1/1000 ∧ |pA'.y - pB'.y| < 1/1000) := by
  refine ⟨by decide, rfl, fun nsamp => rfl, ?_⟩
  intro nsamp
  have hseg := seg1_compile_getLast nsamp
  refine ⟨⟨400, 495⟩, ⟨400, 505⟩,
    ⟨10137535/25344, 552089798179566370805891200093/1115332925615283697090560000⟩,
    ⟨10137535/25344, 563243127435717326284668799907/1115332925615283697090560000⟩,
    hseg.1, hseg.2, ?_, ?_, ?_, ?_⟩
  · decide
  · decide
  · decide
  · decide
